import Mathlib

/-!
Verification of the BrainPy dynamical-system composition layer.

This file gives a shallow embedding of the composition/scheduling core of
the repository — `brainpy/dyn/base.py` (`DynamicalSystem`, `Container`,
`Network`, `CondNeuGroup`, `Sequential`) and
`brainpy/_src/dyn/context.py` (`_ShareContext`) — and proves the stated
behavioural properties about it.  Components of the repository that the
embedded code calls but whose sources are not available
(`brainpy.base.collector.Collector`, `brainpy.math.LengthDelay`) are
modelled from the specification document; every such definition is marked
`Modelled from the spec:` in its doc comment.
-/

namespace BrainPy

/-!  ## Shared context: `_ShareContext.save` (context.py lines 58-66)  -/

/-- A Python object passed positionally to `save` or stored in the
`_arguments` dict (a key or a scalar value). -/
inductive Obj
  | s (v : String)
  | i (v : Int)
deriving DecidableEq

/-- Python exceptions surfaced by the `save` embedding. -/
inductive PyErr
  | assertionError
  | indexError
deriving DecidableEq

/-- Assignment into a Python dict: overwrite in place when the key is
bound, otherwise append the new binding (insertion order preserved). -/
def storeSet (st : List (Obj × Obj)) (k v : Obj) : List (Obj × Obj) :=
  if st.any (fun p => p.1 == k) then
    st.map (fun p => if p.1 == k then (k, v) else p)
  else
    st ++ [(k, v)]

/-- The positional-argument loop of `_ShareContext.save` (context.py
lines 61-64).  The Python loop variable is `i = 0, 2, 4, ...` while
`i < len(args)`, and the body reads `args[i*2]` and `args[i*2+1]`.
Here `k` counts iterations, so `i = 2*k` and the body reads
`args[4*k]` and `args[4*k+1]`; a read past the end raises `IndexError`,
leaving the assignments already made in place. -/
def saveArgsLoop (args : List Obj) (k : Nat) (st : List (Obj × Obj)) :
    List (Obj × Obj) × Option PyErr :=
  if 2 * k < args.length then
    match args.get? (4 * k), args.get? (4 * k + 1) with
    | some ident, some data => saveArgsLoop args (k + 1) (storeSet st ident data)
    | _, _ => (st, some .indexError)
  else
    (st, none)
termination_by args.length - 2 * k
decreasing_by omega

/-- `_ShareContext.save` (context.py lines 58-66): assert an even number
of positional arguments, run the positional loop, then store every
keyword argument.  The final `_arguments` store is returned together
with the escaping error, if any: Python leaves mutations made before an
exception in place, so the store is meaningful in both cases. -/
def shareSave (args : List Obj) (kwargs : List (Obj × Obj))
    (st : List (Obj × Obj)) : List (Obj × Obj) × Option PyErr :=
  if args.length % 2 = 0 then
    match saveArgsLoop args 0 st with
    | (st1, Option.none) =>
        (kwargs.foldl (fun s p => storeSet s p.1 p.2) st1, Option.none)
    | (st1, some e) => (st1, some e)
  else
    (st, some .assertionError)

/-!  ## Delay subsystem: `register_delay` / `get_delay_data`
(base.py lines 120-238), with `bm.LengthDelay` modelled from the spec. -/

/-- A tensor value: a flat vector of integers. -/
abbrev Tensor := List Int

/-- Modelled from the spec: `bm.LengthDelay` is not under `src/`.
Per §3 a delay buffer stores "a fixed-size circular history of a target
tensor's values over the last `max_delay_step+1` ticks"; `history` slot
`i` holds the value `i` ticks ago (slot 0 = most recent). -/
structure LengthDelay where
  history : List Tensor
deriving DecidableEq

/-- The buffer capacity, `LengthDelay.num_delay_step = max_delay_step + 1`. -/
def LengthDelay.numDelayStep (d : LengthDelay) : Nat :=
  d.history.length

/-- Modelled from the spec: creating a buffer of capacity `maxStep + 1`
fills slot 0 with the current target value and the remaining `maxStep`
slots with the initial fill value (§8: before enough ticks have been
recorded, reads return the initial fill value). -/
def LengthDelay.init (target : Tensor) (maxStep : Nat) (fill : Int) : LengthDelay :=
  ⟨target :: List.replicate maxStep (List.replicate target.length fill)⟩

/-- Modelled from the spec: `LengthDelay.reset` re-registration
"resizes/reinitializes" the buffer (§3) — the history is rebuilt from
the current target value and the initial fill, not carried over. -/
def LengthDelay.reset (_d : LengthDelay) (target : Tensor) (maxStep : Nat)
    (fill : Int) : LengthDelay :=
  LengthDelay.init target maxStep fill

/-- Modelled from the spec: one tick's refresh pushes the newest value
and drops the oldest, keeping the capacity fixed (circular buffer). -/
def LengthDelay.update (d : LengthDelay) (value : Tensor) : LengthDelay :=
  ⟨(value :: d.history).take d.history.length⟩

/-- Modelled from the spec: reading at homogeneous lag `i` returns the
whole slice recorded `i` ticks ago; the read is circular in the
capacity, like the source's `(idx + delay_len) % num_delay_step`. -/
def LengthDelay.callHomo (d : LengthDelay) (i : Nat) : Tensor :=
  d.history.getD (i % d.history.length) []

/-- Modelled from the spec: a heterogeneous read with per-element lags
`steps` and element indices `ix` returns, at output position `j`,
element `ix[j]` of the slice recorded `steps[j]` ticks ago (advanced
indexing `data[delay_idx, indices]`). -/
def LengthDelay.callHeter (d : LengthDelay) (steps : List Nat) (ix : List Nat) : Tensor :=
  (List.range steps.length).map (fun j =>
    (d.history.getD (steps.getD j 0 % d.history.length) []).getD (ix.getD j 0) 0)

/-- The `delay_step` argument of `register_delay` (base.py lines
145-161): `None`, a scalar integer, or an integer tensor of per-element
steps.  The callable/`Initializer` forms are normalized by the source to
the tensor form and are outside this embedding. -/
inductive DelayStep
  | none
  | homo (d : Nat)
  | heter (ds : List Nat)
deriving DecidableEq

/-- Errors raised by the delay API: the `KeyError` of a missing Python
dict key, the descriptive `ValueError` of base.py line 238 (which names
the offending key), the shape-mismatch `ValueError` of line 168, and the
`TypeError` from calling a `None` buffer. -/
inductive DelayErr
  | keyError (key : String)
  | notDefined (key : String)
  | shapeMismatch
  | typeError
deriving DecidableEq

/-- Assignment into a string-keyed Python dict (same semantics as
`storeSet`). -/
def mapSet {α : Type} (m : List (String × α)) (k : String) (v : α) :
    List (String × α) :=
  if m.any (fun p => p.1 == k) then
    m.map (fun p => if p.1 == k then (k, v) else p)
  else
    m ++ [(k, v)]

/-- The delay-registry state of one node: `vars` is the mutable store
backing `bm.Variable`s (a `Variable` is a reference, modelled as a `Nat`
id), `globalDelayData` mirrors `DynamicalSystem.global_delay_data`
(key to `(LengthDelay | None, target variable)`), and `localDelayVars`
mirrors `DynamicalSystem.local_delay_vars`. -/
structure DelayState where
  vars : Nat → Tensor
  globalDelayData : List (String × (Option LengthDelay × Nat))
  localDelayVars : List (String × LengthDelay)

/-- Reassign a `bm.Variable`'s value in place (`target.value = v`). -/
def setVar (st : DelayState) (v : Nat) (val : Tensor) : DelayState :=
  { st with vars := fun i => if i = v then val else st.vars i }

/-- The delay-variable creation part of `register_delay` (base.py lines
177-194), shared by the `homo` and `heter` forms, with `maxStep` the
already-computed `int(bm.max(delay_step))`.  When an existing buffer of
sufficient capacity is found the state is untouched; when it is too
small the source calls `LengthDelay.reset` on the shared object, so both
the global entry and — when this node aliases it — the local entry see
the rebuilt buffer. -/
def registerDelayAux (st : DelayState) (identifier : String)
    (normStep : DelayStep) (maxStep : Nat) (target : Nat) (fill : Int) :
    DelayState × DelayStep :=
  match st.globalDelayData.lookup identifier with
  | Option.none =>
      let d := LengthDelay.init (st.vars target) maxStep fill
      ({ st with
          globalDelayData := mapSet st.globalDelayData identifier (some d, target),
          localDelayVars := mapSet st.localDelayVars identifier d }, normStep)
  | some (Option.none, _) =>
      let d := LengthDelay.init (st.vars target) maxStep fill
      ({ st with
          globalDelayData := mapSet st.globalDelayData identifier (some d, target),
          localDelayVars := mapSet st.localDelayVars identifier d }, normStep)
  | some (some d, tgt) =>
      if d.numDelayStep - 1 < maxStep then
        let d2 := d.reset (st.vars target) maxStep fill
        ({ st with
            globalDelayData := mapSet st.globalDelayData identifier (some d2, tgt),
            localDelayVars :=
              if (st.localDelayVars.lookup identifier).isSome then
                mapSet st.localDelayVars identifier d2
              else
                st.localDelayVars }, normStep)
      else
        (st, normStep)

/-- `DynamicalSystem.register_delay` (base.py lines 120-194) for the
delay-step forms covered by `DelayStep`.  `delay_step = None` records a
buffer-less pass-through entry; a heterogeneous step tensor must match
the target's leading dimension (line 167, a `ValueError`); the integral
dtype requirement of line 163 is satisfied by construction here. -/
def registerDelay (st : DelayState) (identifier : String)
    (delayStep : DelayStep) (target : Nat) (fill : Int) :
    Except DelayErr (DelayState × DelayStep) :=
  match delayStep with
  | .none =>
      .ok ({ st with
              globalDelayData :=
                mapSet st.globalDelayData identifier (Option.none, target) },
           DelayStep.none)
  | .homo d => .ok (registerDelayAux st identifier (.homo d) d target fill)
  | .heter ds =>
      if (st.vars target).length = ds.length then
        .ok (registerDelayAux st identifier (.heter ds) (ds.foldl max 0) target fill)
      else
        .error .shapeMismatch

/-- One tick's refresh of one registered buffer, as
`DynamicalSystem.update_local_delays` (base.py lines 277-281) performs
it: `delay.update(target.value)` on the global entry's buffer.  The
source mutates the shared `LengthDelay` object, so a local entry under
the same key sees the same refreshed buffer. -/
def refreshDelay (st : DelayState) (key : String) : DelayState :=
  match st.globalDelayData.lookup key with
  | some (some buf, tgt) =>
      { st with
          globalDelayData :=
            mapSet st.globalDelayData key (some (buf.update (st.vars tgt)), tgt),
          localDelayVars :=
            if (st.localDelayVars.lookup key).isSome then
              mapSet st.localDelayVars key (buf.update (st.vars tgt))
            else
              st.localDelayVars }
  | _ => st

/-- `DynamicalSystem.get_delay_data` (base.py lines 196-238).
`indices = Option.none` models a call with no explicit indices; the
source then substitutes `jnp.arange(delay_step.size)` for the
heterogeneous form.  With `delay_step = None` the source reads
`self.global_delay_data[identifier][1].value` directly, so a missing key
raises a `KeyError`; otherwise an unregistered key reaches the final
`else` and raises the descriptive `ValueError` naming the key. -/
def getDelayData (st : DelayState) (identifier : String)
    (delayStep : DelayStep) (indices : Option (List Nat)) :
    Except DelayErr Tensor :=
  match delayStep with
  | .none =>
      match st.globalDelayData.lookup identifier with
      | Option.none => .error (.keyError identifier)
      | some (_, tgt) => .ok (st.vars tgt)
  | .homo d =>
      match st.globalDelayData.lookup identifier with
      | some (some buf, _) => .ok (buf.callHomo d)
      | some (Option.none, _) => .error .typeError
      | Option.none =>
          match st.localDelayVars.lookup identifier with
          | some buf => .ok (buf.callHomo d)
          | Option.none => .error (.notDefined identifier)
  | .heter ds =>
      match st.globalDelayData.lookup identifier with
      | some (some buf, _) =>
          .ok (buf.callHeter ds (indices.getD (List.range ds.length)))
      | some (Option.none, _) => .error .typeError
      | Option.none =>
          match st.localDelayVars.lookup identifier with
          | some buf =>
              .ok (buf.callHeter ds (indices.getD (List.range ds.length)))
          | Option.none => .error (.notDefined identifier)

/-!  ## Container construction (base.py lines 361-411) -/

/-- A `DynamicalSystem` child, abstracted to its process-unique name and
an identity. -/
structure DNode where
  name : String
  nid : Nat
deriving DecidableEq

/-- A member of a list/tuple/dict positional argument: either a
`DynamicalSystem` or some other Python object. -/
inductive PosItem
  | node (n : DNode)
  | other
deriving DecidableEq

/-- One positional argument of `Container.__init__`: a bare node, a
list/tuple of members, a dict of members, or something else. -/
inductive PosArg
  | node (n : DNode)
  | coll (ms : List PosItem)
  | dct (ms : List (String × PosItem))
  | other
deriving DecidableEq

/-- A value bound in `implicit_nodes`: base.py line 396 stores the whole
list/tuple under each member's name, so a binding holds either a single
node or a collection. -/
inductive ChildVal
  | single (n : DNode)
  | coll (ms : List PosItem)
deriving DecidableEq

/-- Construction-time errors of `Container.__init__`: a duplicate child
name (naming the key), or an argument that is not a `DynamicalSystem`
nor a collection of them. -/
inductive BuildErr
  | dupName (k : String)
  | notDS
deriving DecidableEq

/-- Modelled from the spec: `brainpy.base.collector.Collector` (the type
of `implicit_nodes`) is not under `src/`.  Per §4.2 a Container
"Rejects duplicate names", so binding a name that is already bound fails
with a duplicate-name error. -/
def collectorSet (m : List (String × ChildVal)) (k : String) (v : ChildVal) :
    Except BuildErr (List (String × ChildVal)) :=
  if m.any (fun p => p.1 == k) then
    .error (.dupName k)
  else
    .ok (m ++ [(k, v)])

/-- The inner loop over the members of a list/tuple positional argument
(base.py lines 391-396): each member must be a `DynamicalSystem`
(else `ValueError`), and the *whole collection* `ms0` is bound under
each member's name. -/
def addCollMembers (ms0 : List PosItem) (acc : List (String × ChildVal)) :
    List PosItem → Except BuildErr (List (String × ChildVal))
  | [] => .ok acc
  | PosItem.node n :: rest => do
      let acc2 ← collectorSet acc n.name (.coll ms0)
      addCollMembers ms0 acc2 rest
  | PosItem.other :: _ => .error .notDS

/-- The loop over the entries of a dict positional argument (base.py
lines 397-402) and, identically, over the keyword arguments (lines
407-411): each value must be a `DynamicalSystem`, bound under the entry
key. -/
def addDictMembers (acc : List (String × ChildVal)) :
    List (String × PosItem) → Except BuildErr (List (String × ChildVal))
  | [] => .ok acc
  | (k, PosItem.node n) :: rest => do
      let acc2 ← collectorSet acc k (.single n)
      addDictMembers acc2 rest
  | (_, PosItem.other) :: _ => .error .notDS

/-- The loop over the positional arguments of `Container.__init__`
(base.py lines 388-405). -/
def addTupleArgs (acc : List (String × ChildVal)) :
    List PosArg → Except BuildErr (List (String × ChildVal))
  | [] => .ok acc
  | PosArg.node n :: rest => do
      let acc2 ← collectorSet acc n.name (.single n)
      addTupleArgs acc2 rest
  | PosArg.coll ms :: rest => do
      let acc2 ← addCollMembers ms acc ms
      addTupleArgs acc2 rest
  | PosArg.dct ms :: rest => do
      let acc2 ← addDictMembers acc ms
      addTupleArgs acc2 rest
  | PosArg.other :: _ => .error .notDS

/-- `Container.__init__` (base.py lines 361-411): process the positional
arguments, then the keyword arguments.  Keyword arguments are modelled
as an association list; supplying two children under one keyword name
makes Python itself reject the call, matching the duplicate-name failure
proved here. -/
def containerInit (dsTuple : List PosArg) (dsDict : List (String × PosItem)) :
    Except BuildErr (List (String × ChildVal)) := do
  let acc ← addTupleArgs [] dsTuple
  addDictMembers acc dsDict

/-!  ## Network update ordering (base.py lines 475-504 and 264-281) -/

/-- The class of an immediate child, as `Network.update` partitions
them: `SynConn`, `NeuGroup`, or any other `DynamicalSystem`. -/
inductive NodeKind
  | syn
  | neu
  | other
deriving DecidableEq

/-- An immediate child of a `Network`, abstracted to what
`Network.update` observes: its class, the keys of its
`local_delay_vars`, and its `update` method — modelled as a transformer
of the store of delay-target variables (a child may read and write any
targets; the shared `tdi` argument is threaded unchanged and omitted). -/
structure NetChild where
  nid : Nat
  kind : NodeKind
  localDelays : List String
  updFn : (String → Int) → (String → Int)

def isSyn (n : NetChild) : Bool :=
  match n.kind with
  | .syn => true
  | _ => false

def isNeu (n : NetChild) : Bool :=
  match n.kind with
  | .neu => true
  | _ => false

def isOther (n : NetChild) : Bool :=
  match n.kind with
  | .other => true
  | _ => false

/-- The three-phase traversal order of `Network.update` (base.py lines
484-501): synapse children, then neuron children, then everything
else. -/
def orderedChildren (ns : List NetChild) : List NetChild :=
  ns.filter isSyn ++ ns.filter isNeu ++ ns.filter isOther

/-- The children's `update`s applied in traversal order to the
delay-target store. -/
def runUpdates (ns : List NetChild) (tg : String → Int) : String → Int :=
  ns.foldl (fun t n => n.updFn t) tg

/-- The state a `Network.update` call acts on: the delay-target
variables and the delay-buffer histories (newest first). -/
structure NetState where
  targets : String → Int
  buffers : String → List Int

/-- `LengthDelay.update` on one abstract buffer history: push the
current value, drop the oldest, capacity fixed. -/
def bufPush (b : List Int) (v : Int) : List Int :=
  (v :: b).take b.length

/-- The body of the refresh loop (base.py lines 278-281): push the
current value of key `k`'s registered target into `k`'s buffer
(`delay.update(target.value)`). -/
def pushKey (s : NetState) (k : String) : NetState :=
  { s with buffers := fun k2 =>
      if k2 = k then bufPush (s.buffers k) (s.targets k) else s.buffers k2 }

/-- `DynamicalSystem.update_local_delays` (base.py lines 264-281): for
every node, for every key of its `local_delay_vars`, push the current
value of the key's registered target into the key's buffer. -/
def updateLocalDelays (ns : List NetChild) (st : NetState) : NetState :=
  ns.foldl (fun s n => n.localDelays.foldl pushKey s) st

/-- `Network.update` (base.py lines 475-504): update synapse children,
then neuron children, then other children, then refresh the local delay
buffers. -/
def networkUpdate (ns : List NetChild) (st : NetState) : NetState :=
  updateLocalDelays ns { st with targets := runUpdates (orderedChildren ns) st.targets }

/-- An observable event of one `Network.update` call: a child's `update`
being invoked, or a delay buffer being refreshed with a value. -/
inductive NetEv
  | upd (nid : Nat) (kind : NodeKind)
  | refresh (key : String) (v : Int)
deriving DecidableEq

/-- The event trace of one `Network.update` call, in execution order:
the three update phases, then one refresh event per local delay key,
carrying the target value current at refresh time (i.e. after all the
children have updated). -/
def networkTrace (ns : List NetChild) (st : NetState) : List NetEv :=
  (orderedChildren ns).map (fun n => NetEv.upd n.nid n.kind) ++
    ns.flatMap (fun n => n.localDelays.map (fun k =>
      NetEv.refresh k (runUpdates (orderedChildren ns) st.targets k)))

/-- The phase an event belongs to: synapse updates, neuron updates,
other updates, delay refreshes. -/
def evRank : NetEv → Nat
  | .upd _ .syn => 0
  | .upd _ .neu => 1
  | .upd _ .other => 2
  | .refresh _ _ => 3

/-!  ## CondNeuGroup.update (base.py lines 968-975) -/

/-- The state a `CondNeuGroup.update` call acts on: membrane voltage
`V`, spike flag, external-input accumulator, and the states of the owned
channels. -/
structure CondState where
  V : Int
  spike : Bool
  input : Int
  channels : List Int
deriving DecidableEq

/-- `CondNeuGroup.update` (base.py lines 968-975), with the injected
integrator `integral` and the owned channels' `update` method `chUpd`
(channel state and voltage argument) left abstract.  Statement order
mirrors the source: integrate, update every channel with `self.V.value`,
recompute `self.spike` as `V >= V_th and self.V < V_th`, zero
`self.input`, then assign `self.V`. -/
def condUpdate (integral : Int → Int → Int → Int) (chUpd : Int → Int → Int)
    (Vth t dt : Int) (s : CondState) : CondState :=
  let v := integral s.V t dt
  let s1 := { s with channels := s.channels.map (fun c => chUpd c s.V) }
  let s2 := { s1 with spike := decide (Vth ≤ v) && decide (s1.V < Vth) }
  let s3 := { s2 with input := 0 }
  { s3 with V := v }

/-!  ## Sequential.__getitem__ (base.py lines 1061-1083) -/

/-- A member of a tuple/list key: an integer index or some other
object. -/
inductive SeqElem
  | int (i : Nat)
  | nonint
deriving DecidableEq

/-- A key passed to `Sequential.__getitem__`: a string, a slice
`[a:b]`, an integer, or a tuple/list of members. -/
inductive SeqKey
  | str (s : String)
  | slice (a b : Nat)
  | int (i : Nat)
  | list (xs : List SeqElem)
deriving DecidableEq

/-- Errors of `Sequential.__getitem__`: the `KeyError` naming a missing
string key (line 1064), the `KeyError` "We excepted a tuple/list of
int" (line 1078), the `TypeError` of tuple indexing with a non-integer,
and an out-of-range integer index. -/
inductive SeqErr
  | keyNotFound (k : String)
  | excepted
  | typeError
  | indexError
deriving DecidableEq

/-- A `Sequential.__getitem__` result: one child, or a new `Sequential`
over the selected children. -/
inductive SeqRes
  | node (n : Nat)
  | seq (children : List (String × Nat))
deriving DecidableEq

/-- The tuple/list branch of `Sequential.__getitem__` (base.py lines
1072-1081).  The source's member check is
`if isinstance(i, int): raise KeyError(...)` — it raises precisely when
the member IS an integer; a non-integer member then reaches
`all_keys[i]`, which raises `TypeError` for a tuple index.  Only the
empty list returns (an empty `Sequential`). -/
def seqGetList (_children : List (String × Nat)) :
    List SeqElem → Except SeqErr SeqRes
  | [] => .ok (.seq [])
  | SeqElem.int _ :: _ => .error .excepted
  | SeqElem.nonint :: _ => .error .typeError

/-- `Sequential.__getitem__` (base.py lines 1061-1083).  A string key
looks up `implicit_nodes`; a slice returns a `Sequential` of the
selected children; an integer indexes the child values (Modelled from
the spec for the indexing of `Collector.values()`, whose source is not
under `src/` — §4.2: "the container also supports
integer/slice/list-of-index access"); a tuple/list key follows the
source loop in `seqGetList`.  Children are the `implicit_nodes`
association list, child nodes abstracted to identities. -/
def seqGetItem (children : List (String × Nat)) (key : SeqKey) :
    Except SeqErr SeqRes :=
  match key with
  | .str s =>
      match children.lookup s with
      | some n => .ok (.node n)
      | Option.none => .error (.keyNotFound s)
  | .slice a b => .ok (.seq ((children.drop a).take (b - a)))
  | .int i =>
      match children.get? i with
      | some p => .ok (.node p.2)
      | Option.none => .error .indexError
  | .list xs => seqGetList children xs

/-!  ## Concrete sample data used by witnesses and counterexamples -/

/-- A buffer of capacity 2 over a two-element target: current slice
`[10, 20]`, one tick ago `[1, 2]`. -/
def heterBuf : LengthDelay :=
  ⟨[[10, 20], [1, 2]]⟩

/-- A registry holding `heterBuf` under key `"k"` for variable 0. -/
def heterSt : DelayState :=
  ⟨fun _ => [], [("k", (some heterBuf, 0))], []⟩

/-- C3 scenario, step 0: variable 0 holds `[10]`, nothing registered. -/
def c3start : DelayState :=
  ⟨fun _ => [10], [], []⟩

/-- C3 scenario, step 1: register key `"k"` with 1 delay step on
variable 0 (initial fill 0). -/
def c3afterReg : DelayState :=
  match registerDelay c3start "k" (DelayStep.homo 1) 0 0 with
  | .ok (s, _) => s
  | .error _ => c3start

/-- C3 scenario, step 2: the target changes to `[20]` and one tick's
delay refresh records the old `[10]` at lag 1. -/
def c3recorded : DelayState :=
  refreshDelay (setVar c3afterReg 0 [20]) "k"

/-- C3 scenario, step 3: re-register the same key with the larger step
count 3. -/
def c3grown : DelayState :=
  match registerDelay c3recorded "k" (DelayStep.homo 3) 0 0 with
  | .ok (s, _) => s
  | .error _ => c3recorded

/-- A synapse child owning delay key `"d"`, whose update writes 7 to
target `"d"`. -/
def sampleSynChild : NetChild :=
  ⟨1, NodeKind.syn, ["d"], fun t => fun k => if k = "d" then 7 else t k⟩

/-- A neuron child whose update overwrites target `"d"` with 9. -/
def sampleNeuChild : NetChild :=
  ⟨2, NodeKind.neu, [], fun t => fun k => if k = "d" then 9 else t k⟩

/-- A child that is neither a synapse nor a neuron group. -/
def sampleOtherChild : NetChild :=
  ⟨3, NodeKind.other, [], fun t => t⟩

/-- A sample network: one synapse, one neuron group, one other node. -/
def sampleNet : List NetChild :=
  [sampleSynChild, sampleNeuChild, sampleOtherChild]

/-- A sample starting state: all targets 0, and a capacity-2 buffer of
zeros for key `"d"`. -/
def sampleNetState : NetState :=
  ⟨fun _ => 0, fun k => if k = "d" then [0, 0] else []⟩

/-!  ## Theorems -/

/-- Looking up an overwritten key finds the new value. -/
theorem lookup_map_overwrite {α : Type} (m : List (String × α)) (k : String) (v : α)
    (h : m.any (fun p => p.1 == k) = true) :
    (m.map (fun p => if p.1 == k then (k, v) else p)).lookup k = some v := by
  induction m with
  | nil => simp at h
  | cons p rest ih =>
    rcases p with ⟨a, b⟩
    by_cases hp : a = k
    · subst hp
      simp only [List.map_cons]
      have hhead : (if (a, b).1 == a then (a, v) else (a, b)) = (a, v) := by simp
      rw [hhead]
      simp [List.lookup]
    · have hba : (a == k) = false := beq_eq_false_iff_ne.mpr hp
      have hab : (k == a) = false := beq_eq_false_iff_ne.mpr (Ne.symm hp)
      have h2 : rest.any (fun p => p.1 == k) = true := by
        simpa [hba] using h
      simp only [List.map_cons]
      have hhead : (if (a, b).1 == k then (k, v) else (a, b)) = (a, b) := by
        simp [hba]
      rw [hhead]
      simp only [List.lookup, hab]
      simpa using ih h2

/-- Looking up a freshly appended key finds its value. -/
theorem lookup_append_fresh {α : Type} (m : List (String × α)) (k : String) (v : α)
    (h : m.any (fun p => p.1 == k) = false) :
    (m ++ [(k, v)]).lookup k = some v := by
  induction m with
  | nil => simp [List.lookup]
  | cons p rest ih =>
    rcases p with ⟨a, b⟩
    simp only [List.any_cons, Bool.or_eq_false_iff] at h
    have hab : (k == a) = false := by
      have hp : ¬a = k := by simpa using h.1
      exact beq_eq_false_iff_ne.mpr (Ne.symm hp)
    simp [List.lookup, hab, ih h.2]

/-- Dict assignment followed by lookup of the same key yields the
assigned value. -/
theorem lookup_mapSet {α : Type} (m : List (String × α)) (k : String) (v : α) :
    (mapSet m k v).lookup k = some v := by
  unfold mapSet
  by_cases h : m.any (fun p => p.1 == k) = true
  · simp only [h, if_true]
    exact lookup_map_overwrite m k v h
  · simp only [Bool.not_eq_true] at h
    simp only [h, Bool.false_eq_true, if_false]
    exact lookup_append_fresh m k v h

/-- C4: registering a delay key with `delay_step = None` creates no
buffer — the global registry entry becomes `(None, target)` and the
local delay variables are untouched — and `get_delay_data(key, None)`
then returns exactly the target variable's current value, including
after the target has been reassigned (pass-through law). -/
theorem register_none_passthrough
    (st : DelayState) (key : String) (target : Nat) (fill : Int) :
    ∃ st2 : DelayState,
      registerDelay st key DelayStep.none target fill = .ok (st2, DelayStep.none)
      ∧ st2.globalDelayData.lookup key = some (Option.none, target)
      ∧ st2.localDelayVars = st.localDelayVars
      ∧ st2.vars = st.vars
      ∧ getDelayData st2 key DelayStep.none Option.none = .ok (st2.vars target)
      ∧ ∀ v : Tensor,
          getDelayData (setVar st2 target v) key DelayStep.none Option.none
            = .ok v := by
  refine ⟨_, rfl, lookup_mapSet _ _ _, rfl, rfl, ?_, ?_⟩
  · simp [getDelayData, lookup_mapSet]
  · intro v
    simp [getDelayData, setVar, lookup_mapSet]

/-- C6: for a delay key registered with a heterogeneous per-element step
tensor, `get_delay_data` with no explicit indices behaves exactly as if
`indices = arange(steps.size)` had been supplied, and returns one value
per element: at each output position `j`, the buffered value of element
`j` at element `j`'s own configured lag `steps[j]`. -/
theorem get_delay_data_heter_default
    (st : DelayState) (key : String) (buf : LengthDelay) (tgt : Nat)
    (h : st.globalDelayData.lookup key = some (some buf, tgt))
    (steps : List Nat) :
    getDelayData st key (.heter steps) Option.none
        = getDelayData st key (.heter steps) (some (List.range steps.length))
    ∧ ∃ out : Tensor,
        getDelayData st key (.heter steps) Option.none = .ok out
        ∧ out.length = steps.length
        ∧ ∀ j : Nat, j < steps.length →
            out.getD j 0 =
              (buf.history.getD (steps.getD j 0 % buf.history.length) []).getD j 0 := by
  constructor
  · simp [getDelayData, h]
  · refine ⟨buf.callHeter steps (List.range steps.length),
      by simp [getDelayData, h], by simp [LengthDelay.callHeter], ?_⟩
    intro j hj
    simp only [LengthDelay.callHeter, List.getD_eq_getElem?_getD,
      List.getElem?_map, List.getElem?_range, hj, if_pos]
    simp [List.getElem?_range, hj, List.getD_eq_getElem?_getD]

/-- Witness for C6 on a concrete capacity-2 buffer over a two-element
target, with per-element lags `[1, 0]`. -/
theorem get_delay_data_heter_default_witness :
    getDelayData heterSt "k" (DelayStep.heter [1, 0]) Option.none
        = getDelayData heterSt "k" (DelayStep.heter [1, 0]) (some (List.range 2))
    ∧ ∃ out : Tensor,
        getDelayData heterSt "k" (DelayStep.heter [1, 0]) Option.none = .ok out
        ∧ out.length = 2
        ∧ out.getD 1 0 = (heterBuf.history.getD (0 % 2) []).getD 1 0 := by
  have h := get_delay_data_heter_default heterSt "k" heterBuf 0 rfl [1, 0]
  obtain ⟨out, h1, h2, h3⟩ := h.2
  exact ⟨h.1, out, h1, h2, h3 1 (by norm_num)⟩

/-- C10: every call to `_ShareContext.save` stores all keyword-named
scalars; with exactly one positional key-value pair that pair is stored
under the given key; but because the loop reads argument positions `2i`
and `2i+1` for a loop index `i` that already advances by two (positions
0,1 then 4,5, ...), a call with exactly two positional pairs fails with
an out-of-range index after having already stored the first pair — the
shared store is mutated despite the error (and the keyword arguments are
then never reached). -/
theorem share_save_positional_pairs
    (kwargs : List (Obj × Obj)) (st : List (Obj × Obj)) :
    (shareSave [] kwargs st =
      (kwargs.foldl (fun s p => storeSet s p.1 p.2) st, Option.none))
    ∧ (∀ k v : Obj, shareSave [k, v] kwargs st =
        (kwargs.foldl (fun s p => storeSet s p.1 p.2) (storeSet st k v),
          Option.none))
    ∧ (∀ a b c d : Obj, shareSave [a, b, c, d] kwargs st =
        (storeSet st a b, some PyErr.indexError)) := by
  refine ⟨?_, ?_, ?_⟩
  · simp [shareSave, saveArgsLoop]
  · intro k v
    simp [shareSave, saveArgsLoop]
  · intro a b c d
    simp [shareSave, saveArgsLoop]

/-- C5: one call to `CondNeuGroup.update` integrates the membrane
voltage, updates every owned channel with the pre-integration (old)
voltage, sets the spike flag to "old voltage below `V_th` and new
voltage at or above `V_th`", clears the external-input accumulator to
zero, and commits the new voltage (as the last statement, so every
earlier step observes the old voltage). -/
theorem cond_neu_group_update_step
    (integral : Int → Int → Int → Int) (chUpd : Int → Int → Int)
    (Vth t dt : Int) (s : CondState) :
    (condUpdate integral chUpd Vth t dt s).V = integral s.V t dt
    ∧ (condUpdate integral chUpd Vth t dt s).channels
        = s.channels.map (fun c => chUpd c s.V)
    ∧ ((condUpdate integral chUpd Vth t dt s).spike = true
        ↔ (s.V < Vth ∧ Vth ≤ integral s.V t dt))
    ∧ (condUpdate integral chUpd Vth t dt s).input = 0 := by
  refine ⟨rfl, rfl, ?_, rfl⟩
  simp only [condUpdate, Bool.and_eq_true, decide_eq_true_eq]
  exact ⟨fun h => ⟨h.2, h.1⟩, fun h => ⟨h.2, h.1⟩⟩

/-- C9 (failing input): `Sequential.__getitem__` retrieves children by
string name, by integer index, and by slice; but its tuple/list branch
raises `KeyError` exactly when a member IS an integer (the inverted
`isinstance` check at base.py line 1077), so the documented
list-of-integer-indices access always fails — here shown on a two-child
Sequential at key `[0, 1]`, and in general for any list key starting
with an integer. -/
theorem sequential_getitem_list_bug :
    seqGetItem [("m0", 0), ("m1", 1)] (SeqKey.str "m1") = .ok (.node 1)
    ∧ seqGetItem [("m0", 0), ("m1", 1)] (SeqKey.int 0) = .ok (.node 0)
    ∧ seqGetItem [("m0", 0), ("m1", 1)] (SeqKey.slice 0 2)
        = .ok (.seq [("m0", 0), ("m1", 1)])
    ∧ seqGetItem [("m0", 0), ("m1", 1)] (SeqKey.list [SeqElem.int 0, SeqElem.int 1])
        = .error .excepted
    ∧ ∀ (children : List (String × Nat)) (i : Nat) (rest : List SeqElem),
        seqGetItem children (SeqKey.list (SeqElem.int i :: rest))
          = .error .excepted := by
  exact ⟨rfl, rfl, rfl, rfl, fun _ _ _ => rfl⟩

/-- C7: `get_delay_data` on a key registered in neither the global delay
registry nor the node's local delay variables fails for every
`delay_step` argument with an error naming the key: a `KeyError` for
`delay_step = None` (the raw dict access of base.py line 219), and the
descriptive `ValueError` "... is not defined in delay variables."
otherwise (line 238). -/
theorem get_delay_data_unregistered
    (st : DelayState) (key : String)
    (hg : st.globalDelayData.lookup key = Option.none)
    (hl : st.localDelayVars.lookup key = Option.none) :
    ∀ (step : DelayStep) (ix : Option (List Nat)),
      getDelayData st key step ix = .error (.keyError key)
      ∨ getDelayData st key step ix = .error (.notDefined key) := by
  intro step ix
  cases step with
  | none => simp [getDelayData, hg]
  | homo d => simp [getDelayData, hg, hl]
  | heter ds => simp [getDelayData, hg, hl]

/-- Witness for C7 at a concrete empty registry and key `"p"`. -/
theorem get_delay_data_unregistered_witness :
    (getDelayData ⟨fun _ => [], [], []⟩ "p" DelayStep.none Option.none
        = .error (.keyError "p")
      ∨ getDelayData ⟨fun _ => [], [], []⟩ "p" DelayStep.none Option.none
        = .error (.notDefined "p"))
    ∧ (getDelayData ⟨fun _ => [], [], []⟩ "p" (DelayStep.homo 2) Option.none
        = .error (.keyError "p")
      ∨ getDelayData ⟨fun _ => [], [], []⟩ "p" (DelayStep.homo 2) Option.none
        = .error (.notDefined "p"))
    ∧ (getDelayData ⟨fun _ => [], [], []⟩ "p" (DelayStep.heter [1, 0]) Option.none
        = .error (.keyError "p")
      ∨ getDelayData ⟨fun _ => [], [], []⟩ "p" (DelayStep.heter [1, 0]) Option.none
        = .error (.notDefined "p")) := by
  have h := get_delay_data_unregistered ⟨fun _ => [], [], []⟩ "p" rfl rfl
  exact ⟨h DelayStep.none Option.none, h (DelayStep.homo 2) Option.none,
    h (DelayStep.heter [1, 0]) Option.none⟩

/-- C2: constructing a Container with two child nodes carrying the same
registration name fails with a duplicate-name error rather than silently
keeping only one child — whether the children arrive as bare positional
nodes (registered under their own names), inside one positional
collection (each member's name is used as a key), or under one keyword
name supplied twice. -/
theorem container_duplicate_names
    (a b : DNode) (h : a.name = b.name) :
    containerInit [PosArg.node a, PosArg.node b] [] = .error (.dupName b.name)
    ∧ containerInit [PosArg.coll [PosItem.node a, PosItem.node b]] []
        = .error (.dupName b.name)
    ∧ ∀ (v w : DNode) (k : String),
        containerInit [] [(k, PosItem.node v), (k, PosItem.node w)]
          = .error (.dupName k) := by
  refine ⟨?_, ?_, ?_⟩
  · simp [containerInit, addTupleArgs, addDictMembers, collectorSet, h,
      Bind.bind, Except.bind]
  · simp [containerInit, addTupleArgs, addCollMembers, addDictMembers,
      collectorSet, h, Bind.bind, Except.bind]
  · intro v w k
    simp [containerInit, addTupleArgs, addDictMembers, collectorSet,
      Bind.bind, Except.bind]

/-- Witness for C2 with two nodes named `"x"` and a repeated keyword
name `"n"`. -/
theorem container_duplicate_names_witness :
    containerInit [PosArg.node ⟨"x", 0⟩, PosArg.node ⟨"x", 1⟩] []
      = .error (.dupName "x")
    ∧ containerInit [PosArg.coll [PosItem.node ⟨"x", 0⟩, PosItem.node ⟨"x", 1⟩]] []
      = .error (.dupName "x")
    ∧ containerInit [] [("n", PosItem.node ⟨"y", 2⟩), ("n", PosItem.node ⟨"z", 3⟩)]
      = .error (.dupName "n") := by
  have h := container_duplicate_names ⟨"x", 0⟩ ⟨"x", 1⟩ rfl
  exact ⟨h.1, h.2.1, h.2.2 ⟨"y", 2⟩ ⟨"z", 3⟩ "n"⟩

/-- C8 counterexample: constructing a Container from the positional list
`[a, b]` of two distinct-named nodes registers the collection once per
member — two child-map entries, not one — and looking up member `a`'s
name yields the whole collection (base.py line 396 stores `module`, the
list, not the member `m`), so the member node itself is not reachable as
a child. -/
theorem container_coll_counterexample :
    containerInit [PosArg.coll [PosItem.node ⟨"a", 0⟩, PosItem.node ⟨"b", 1⟩]] []
      = .ok [("a", ChildVal.coll [PosItem.node ⟨"a", 0⟩, PosItem.node ⟨"b", 1⟩]),
             ("b", ChildVal.coll [PosItem.node ⟨"a", 0⟩, PosItem.node ⟨"b", 1⟩])]
    ∧ List.lookup "a"
        [("a", ChildVal.coll [PosItem.node ⟨"a", 0⟩, PosItem.node ⟨"b", 1⟩]),
         ("b", ChildVal.coll [PosItem.node ⟨"a", 0⟩, PosItem.node ⟨"b", 1⟩])]
        ≠ some (ChildVal.single ⟨"a", 0⟩) := by
  exact ⟨rfl, by decide⟩

/-- Processing a collection whose members are nodes with names disjoint
from the accumulator and pairwise distinct appends one binding per
member, each holding the whole collection. -/
theorem addCollMembers_nodes (ms0 : List PosItem) (ns : List DNode) :
    ∀ acc : List (String × ChildVal),
      (∀ n ∈ ns, ∀ p ∈ acc, p.1 ≠ n.name) →
      (ns.map DNode.name).Nodup →
      addCollMembers ms0 acc (ns.map PosItem.node)
        = .ok (acc ++ ns.map (fun n => (n.name, ChildVal.coll ms0))) := by
  induction ns with
  | nil =>
    intro acc _ _
    simp [addCollMembers]
  | cons n rest ih =>
    intro acc hdisj hnd
    have hany : acc.any (fun p => p.1 == n.name) = false := by
      rw [List.any_eq_false]
      intro p hp
      simp only [beq_iff_eq]
      exact hdisj n (List.mem_cons_self _ _) p hp
    simp only [List.map_cons, List.nodup_cons] at hnd
    have hdisj2 : ∀ m ∈ rest, ∀ p ∈ acc ++ [(n.name, ChildVal.coll ms0)],
        p.1 ≠ m.name := by
      intro m hm p hp
      rcases List.mem_append.mp hp with hp1 | hp2
      · exact hdisj m (List.mem_cons_of_mem _ hm) p hp1
      · have hpv : p = (n.name, ChildVal.coll ms0) := by simpa using hp2
        rw [hpv]
        intro hcontra
        have hnm : n.name = m.name := hcontra
        exact hnd.1 (by rw [hnm]; exact List.mem_map_of_mem DNode.name hm)
    simp only [List.map_cons, addCollMembers, collectorSet, hany,
      Bool.false_eq_true, if_false, Bind.bind, Except.bind]
    rw [ih (acc ++ [(n.name, ChildVal.coll ms0)]) hdisj2 hnd.2]
    simp

/-- C8 amended: a positional list/tuple of nodes with pairwise-distinct
names is accepted and registered under *each member's* name — one
child-map entry per member, every entry holding the whole collection
(the member's name therefore resolves to the collection, not to the
member node itself); a positional element that is neither a node nor a
list/dict of nodes is rejected with an error, as is a non-node member of
a collection. -/
theorem container_coll_registration
    (ns : List DNode) (hnd : (ns.map DNode.name).Nodup) :
    containerInit [PosArg.coll (ns.map PosItem.node)] []
      = .ok (ns.map (fun n => (n.name, ChildVal.coll (ns.map PosItem.node))))
    ∧ (∀ rest : List PosItem,
        containerInit [PosArg.coll (PosItem.other :: rest)] [] = .error .notDS)
    ∧ (∀ rest : List PosArg,
        containerInit (PosArg.other :: rest) [] = .error .notDS) := by
  refine ⟨?_, fun rest => rfl, fun rest => rfl⟩
  have h := addCollMembers_nodes (ns.map PosItem.node) ns [] (by simp) hnd
  simp [containerInit, addTupleArgs, h, addDictMembers, Bind.bind, Except.bind]

/-- Witness for C8 on the two-node collection `[⟨"a"⟩, ⟨"b"⟩]`. -/
theorem container_coll_registration_witness :
    containerInit [PosArg.coll [PosItem.node ⟨"a", 2⟩, PosItem.node ⟨"b", 3⟩]] []
      = .ok [("a", ChildVal.coll [PosItem.node ⟨"a", 2⟩, PosItem.node ⟨"b", 3⟩]),
             ("b", ChildVal.coll [PosItem.node ⟨"a", 2⟩, PosItem.node ⟨"b", 3⟩])]
    ∧ containerInit [PosArg.coll [PosItem.other]] [] = .error .notDS
    ∧ containerInit [PosArg.other] [] = .error .notDS := by
  have h := container_coll_registration [⟨"a", 2⟩, ⟨"b", 3⟩] (by decide)
  exact ⟨h.1, h.2.1 [], h.2.2 []⟩

/-- C3 counterexample: re-registering key `"k"` (capacity 2, with the
value `[10]` recorded one tick ago) at the larger step count 3 calls
`LengthDelay.reset`, which reinitializes the buffer — the read at lag 1
afterwards returns the initial fill `[0]`, not the previously recorded
`[10]`: the already-recorded history is NOT preserved. -/
theorem register_delay_grow_loses_history :
    getDelayData c3recorded "k" (DelayStep.homo 1) Option.none = .ok [10]
    ∧ (registerDelay c3recorded "k" (DelayStep.homo 3) 0 0).isOk = true
    ∧ getDelayData c3grown "k" (DelayStep.homo 1) Option.none = .ok [0]
    ∧ ¬([0] : Tensor) = [10] := by
  exact ⟨rfl, rfl, rfl, by decide⟩

/-- C3 amended: a later `register_delay` on an already-registered key
with a larger step count `s2 > s` rebuilds the buffer at the extended
capacity `s2 + 1`, reinitialized from the current target value and the
initial fill (the already-recorded history is discarded); a registration
with a smaller or equal step count leaves the state entirely unchanged —
so the capacity never decreases. -/
theorem register_delay_grow_or_noop
    (st : DelayState) (key : String) (buf : LengthDelay) (tgt t2 : Nat)
    (s s2 : Nat) (fill : Int)
    (hbuf : st.globalDelayData.lookup key = some (some buf, tgt))
    (hcap : buf.numDelayStep = s + 1) :
    (s < s2 →
      ∃ st2 : DelayState,
        registerDelay st key (DelayStep.homo s2) t2 fill
            = .ok (st2, DelayStep.homo s2)
        ∧ st2.globalDelayData.lookup key
            = some (some (LengthDelay.init (st.vars t2) s2 fill), tgt)
        ∧ (LengthDelay.init (st.vars t2) s2 fill).numDelayStep = s2 + 1)
    ∧ (s2 ≤ s →
        registerDelay st key (DelayStep.homo s2) t2 fill
          = .ok (st, DelayStep.homo s2)) := by
  constructor
  · intro hlt
    have hcond : buf.numDelayStep - 1 < s2 := by omega
    refine ⟨?st2, ?heq, ?hlook, ?hcap2⟩
    case heq =>
      simp only [registerDelay, registerDelayAux, hbuf]
      rw [if_pos hcond]
      exact rfl
    case hlook => exact lookup_mapSet _ _ _
    case hcap2 => simp [LengthDelay.init, LengthDelay.numDelayStep]
  · intro hle
    have hcond : ¬buf.numDelayStep - 1 < s2 := by omega
    simp only [registerDelay, registerDelayAux, hbuf]
    rw [if_neg hcond]

/-- Witness for the amended C3 on the concrete recorded state: growing
from capacity 2 to 4 rebuilds the buffer, and re-registering at the
equal step count 1 is a no-op. -/
theorem register_delay_grow_or_noop_witness :
    (∃ st2 : DelayState,
        registerDelay c3recorded "k" (DelayStep.homo 3) 0 0
            = .ok (st2, DelayStep.homo 3)
        ∧ st2.globalDelayData.lookup "k"
            = some (some (LengthDelay.init (c3recorded.vars 0) 3 0), 0)
        ∧ (LengthDelay.init (c3recorded.vars 0) 3 0).numDelayStep = 3 + 1)
    ∧ registerDelay c3recorded "k" (DelayStep.homo 1) 0 0
        = .ok (c3recorded, DelayStep.homo 1) := by
  have h := register_delay_grow_or_noop c3recorded "k"
    (LengthDelay.update (LengthDelay.init [10] 1 0) [20]) 0 0 1 1 0 rfl rfl
  have h2 := register_delay_grow_or_noop c3recorded "k"
    (LengthDelay.update (LengthDelay.init [10] 1 0) [20]) 0 0 1 3 0 rfl rfl
  exact ⟨h2.1 (by norm_num), h.2 (by norm_num)⟩

/-- A child passing the `isSyn` filter is a synapse. -/
theorem kind_of_isSyn (n : NetChild) (h : isSyn n = true) :
    n.kind = NodeKind.syn := by
  cases hn : n.kind with
  | syn => rfl
  | neu => simp [isSyn, hn] at h
  | other => simp [isSyn, hn] at h

/-- A child passing the `isNeu` filter is a neuron group. -/
theorem kind_of_isNeu (n : NetChild) (h : isNeu n = true) :
    n.kind = NodeKind.neu := by
  cases hn : n.kind with
  | syn => simp [isNeu, hn] at h
  | neu => rfl
  | other => simp [isNeu, hn] at h

/-- A child passing the `isOther` filter is neither synapse nor neuron. -/
theorem kind_of_isOther (n : NetChild) (h : isOther n = true) :
    n.kind = NodeKind.other := by
  cases hn : n.kind with
  | syn => simp [isOther, hn] at h
  | neu => simp [isOther, hn] at h
  | other => rfl

/-- Every event of the synapse phase has rank 0. -/
theorem rank_of_mem_syn_phase (ns : List NetChild) (e : NetEv)
    (he : e ∈ (ns.filter isSyn).map (fun n => NetEv.upd n.nid n.kind)) :
    evRank e = 0 := by
  rcases List.mem_map.mp he with ⟨n, hn, rfl⟩
  rw [evRank.eq_def]
  rw [kind_of_isSyn n (List.mem_filter.mp hn).2]

/-- Every event of the neuron phase has rank 1. -/
theorem rank_of_mem_neu_phase (ns : List NetChild) (e : NetEv)
    (he : e ∈ (ns.filter isNeu).map (fun n => NetEv.upd n.nid n.kind)) :
    evRank e = 1 := by
  rcases List.mem_map.mp he with ⟨n, hn, rfl⟩
  rw [evRank.eq_def]
  rw [kind_of_isNeu n (List.mem_filter.mp hn).2]

/-- Every event of the other-nodes phase has rank 2. -/
theorem rank_of_mem_other_phase (ns : List NetChild) (e : NetEv)
    (he : e ∈ (ns.filter isOther).map (fun n => NetEv.upd n.nid n.kind)) :
    evRank e = 2 := by
  rcases List.mem_map.mp he with ⟨n, hn, rfl⟩
  rw [evRank.eq_def]
  rw [kind_of_isOther n (List.mem_filter.mp hn).2]

/-- Every event of the delay-refresh phase has rank 3. -/
theorem rank_of_mem_refresh_phase (ns : List NetChild) (tg : String → Int)
    (e : NetEv)
    (he : e ∈ ns.flatMap (fun n => n.localDelays.map
        (fun k => NetEv.refresh k (tg k)))) :
    evRank e = 3 := by
  rcases List.mem_flatMap.mp he with ⟨n, _, he2⟩
  rcases List.mem_map.mp he2 with ⟨k, _, rfl⟩
  rfl

/-- A list whose events all share one rank is rank-sorted. -/
theorem pairwise_rank_const (l : List NetEv) (c : Nat)
    (h : ∀ e ∈ l, evRank e = c) :
    l.Pairwise (fun a b => evRank a ≤ evRank b) := by
  induction l with
  | nil => exact List.Pairwise.nil
  | cons e rest ih =>
    constructor
    · intro b hb
      rw [h e (List.mem_cons_self _ _), h b (List.mem_cons_of_mem _ hb)]
    · exact ih (fun x hx => h x (List.mem_cons_of_mem _ hx))

/-- `updateLocalDelays` on a cons peels one node's refresh loop. -/
theorem updateLocalDelays_cons (n : NetChild) (rest : List NetChild)
    (s : NetState) :
    updateLocalDelays (n :: rest) s
      = updateLocalDelays rest (n.localDelays.foldl pushKey s) := rfl

/-- The refresh loop never touches the target variables. -/
theorem foldPush_targets (ks : List String) (s : NetState) :
    (ks.foldl pushKey s).targets = s.targets := by
  induction ks generalizing s with
  | nil => rfl
  | cons k1 rest ih =>
    rw [List.foldl_cons, ih]
    rfl

/-- One node's refresh loop pushes the (unchanged) target value once per
occurrence of the key in its local delay list. -/
theorem foldPush_buffers (ks : List String) (s : NetState) (k : String) :
    (ks.foldl pushKey s).buffers k
      = (fun b => bufPush b (s.targets k))^[ks.count k] (s.buffers k) := by
  induction ks generalizing s with
  | nil => rfl
  | cons k1 rest ih =>
    rw [List.foldl_cons, ih]
    have ht : (pushKey s k1).targets = s.targets := rfl
    rw [ht]
    by_cases hk : k = k1
    · subst hk
      have hb : (pushKey s k).buffers k = bufPush (s.buffers k) (s.targets k) := by
        simp [pushKey]
      rw [hb, List.count_cons_self, Function.iterate_succ_apply]
    · have hb : (pushKey s k1).buffers k = s.buffers k := by
        simp [pushKey, hk]
      rw [hb, List.count_cons_of_ne (by simpa using hk)]

/-- The whole refresh phase never touches the target variables. -/
theorem updateLocalDelays_targets (ns : List NetChild) (s : NetState) :
    (updateLocalDelays ns s).targets = s.targets := by
  induction ns generalizing s with
  | nil => rfl
  | cons n rest ih =>
    rw [updateLocalDelays_cons, ih, foldPush_targets]

/-- The whole refresh phase pushes, into each key's buffer, the target
value held at refresh time, once per registration of the key. -/
theorem updateLocalDelays_buffers (ns : List NetChild) (s : NetState)
    (k : String) :
    (updateLocalDelays ns s).buffers k
      = (fun b => bufPush b (s.targets k))^[
          (ns.flatMap (fun n => n.localDelays)).count k] (s.buffers k) := by
  induction ns generalizing s with
  | nil => rfl
  | cons n rest ih =>
    rw [updateLocalDelays_cons, ih, foldPush_targets, foldPush_buffers]
    rw [← Function.iterate_add_apply]
    have hc : (rest.flatMap (fun n => n.localDelays)).count k
          + (n.localDelays).count k
        = ((n :: rest).flatMap (fun n => n.localDelays)).count k := by
      rw [List.flatMap_cons, List.count_append]
      omega
    rw [hc]

/-- C1: one `Network.update` call is rank-sorted — every synapse child's
update strictly precedes every neuron child's update, which strictly
precedes every other child's update, and every delay-buffer refresh
comes after all child updates; every child is updated; every local delay
key is refreshed, and every refresh carries the target value obtained
after all children have updated (`runUpdates` over the synapse → neuron
→ other order); finally, the state after the call has exactly those
targets, and each key's buffer received exactly that value, once per
registration of the key. -/
theorem network_update_order (ns : List NetChild) (st : NetState) :
    (networkTrace ns st).Pairwise (fun a b => evRank a ≤ evRank b)
    ∧ (∀ n ∈ ns, NetEv.upd n.nid n.kind ∈ networkTrace ns st)
    ∧ (∀ n ∈ ns, ∀ k ∈ n.localDelays,
        NetEv.refresh k (runUpdates (orderedChildren ns) st.targets k)
          ∈ networkTrace ns st)
    ∧ (∀ (k : String) (v : Int), NetEv.refresh k v ∈ networkTrace ns st →
        v = runUpdates (orderedChildren ns) st.targets k)
    ∧ (networkUpdate ns st).targets = runUpdates (orderedChildren ns) st.targets
    ∧ ∀ k : String, (networkUpdate ns st).buffers k =
        (fun b => bufPush b (runUpdates (orderedChildren ns) st.targets k))^[
          (ns.flatMap (fun n => n.localDelays)).count k] (st.buffers k) := by
  have htrace : networkTrace ns st
      = (ns.filter isSyn).map (fun n => NetEv.upd n.nid n.kind)
        ++ ((ns.filter isNeu).map (fun n => NetEv.upd n.nid n.kind)
        ++ ((ns.filter isOther).map (fun n => NetEv.upd n.nid n.kind)
        ++ ns.flatMap (fun n => n.localDelays.map
            (fun k => NetEv.refresh k
              (runUpdates (orderedChildren ns) st.targets k))))) := by
    simp [networkTrace, orderedChildren, List.map_append, List.append_assoc]
  refine ⟨?_, ?_, ?_, ?_, updateLocalDelays_targets _ _, ?_⟩
  · rw [htrace]
    refine List.pairwise_append.mpr
      ⟨pairwise_rank_const _ 0 (rank_of_mem_syn_phase ns), ?_, ?_⟩
    · refine List.pairwise_append.mpr
        ⟨pairwise_rank_const _ 1 (rank_of_mem_neu_phase ns), ?_, ?_⟩
      · refine List.pairwise_append.mpr
          ⟨pairwise_rank_const _ 2 (rank_of_mem_other_phase ns),
           pairwise_rank_const _ 3 (rank_of_mem_refresh_phase ns _), ?_⟩
        intro a ha b hb
        rw [rank_of_mem_other_phase ns a ha,
          rank_of_mem_refresh_phase ns _ b hb]
        omega
      · intro a ha b hb
        rw [rank_of_mem_neu_phase ns a ha]
        rcases List.mem_append.mp hb with hb1 | hb2
        · rw [rank_of_mem_other_phase ns b hb1]
          omega
        · rw [rank_of_mem_refresh_phase ns _ b hb2]
          omega
    · intro a ha b hb
      rw [rank_of_mem_syn_phase ns a ha]
      exact Nat.zero_le _
  · intro n hn
    have hord : n ∈ orderedChildren ns := by
      rw [orderedChildren]
      cases hk : n.kind with
      | syn =>
        exact List.mem_append_left _ (List.mem_append_left _
          (List.mem_filter.mpr ⟨hn, by simp [isSyn, hk]⟩))
      | neu =>
        exact List.mem_append_left _ (List.mem_append_right _
          (List.mem_filter.mpr ⟨hn, by simp [isNeu, hk]⟩))
      | other =>
        exact List.mem_append_right _
          (List.mem_filter.mpr ⟨hn, by simp [isOther, hk]⟩)
    exact List.mem_append_left _ (List.mem_map_of_mem _ hord)
  · intro n hn k hk
    refine List.mem_append_right _ ?_
    exact List.mem_flatMap.mpr ⟨n, hn, List.mem_map_of_mem _ hk⟩
  · intro k v hmem
    rcases List.mem_append.mp hmem with h1 | h2
    · rcases List.mem_map.mp h1 with ⟨n, _, heq⟩
      exact absurd heq (by simp)
    · rcases List.mem_flatMap.mp h2 with ⟨n, _, he2⟩
      rcases List.mem_map.mp he2 with ⟨k1, _, heq⟩
      have hk1 : k1 = k := by
        have := congrArg (fun e => match e with
          | NetEv.refresh key _ => key
          | NetEv.upd nid _ => toString nid) heq
        simpa using this
      have hv : runUpdates (orderedChildren ns) st.targets k1 = v := by
        have := congrArg (fun e => match e with
          | NetEv.refresh _ w => w
          | NetEv.upd _ _ => 0) heq
        simpa using this
      rw [← hv, hk1]
  · intro k
    exact updateLocalDelays_buffers ns _ k

/-- Witness for C1 on the three-child sample network: the trace is
rank-sorted, the synapse child's update occurs, the refresh of key `"d"`
carries 9 (the value written by the neuron child, which updates after
the synapse child), and the capacity-2 buffer for `"d"` ends as
`[9, 0]`. -/
theorem network_update_order_witness :
    (networkTrace sampleNet sampleNetState).Pairwise
        (fun a b => evRank a ≤ evRank b)
    ∧ NetEv.upd 1 NodeKind.syn ∈ networkTrace sampleNet sampleNetState
    ∧ NetEv.refresh "d" 9 ∈ networkTrace sampleNet sampleNetState
    ∧ (networkUpdate sampleNet sampleNetState).buffers "d" = [9, 0] := by
  have h := network_update_order sampleNet sampleNetState
  refine ⟨h.1, ?_, ?_, ?_⟩
  · exact h.2.1 sampleSynChild (List.mem_cons_self _ _)
  · have h3 := h.2.2.1 sampleSynChild (List.mem_cons_self _ _) "d"
      (List.mem_cons_self _ _)
    have hval : runUpdates (orderedChildren sampleNet) sampleNetState.targets "d"
        = 9 := rfl
    rw [hval] at h3
    exact h3
  · have h6 := h.2.2.2.2.2 "d"
    rw [h6]
    rfl

end BrainPy
